import Mathlib

/-!
# A shallow embedding of the replay-fsm engine (src/lib/fsm.js)

JavaScript values that the engine inspects are modelled by the inductive
type `Value`.  Machine states, transition inputs/outputs, thrown errors and
final-state arguments are all `Value`s, exactly as in JS where they are all
ordinary values.  Promise-based control flow collapses to sequential
execution: a `transitionFn` is a pure function returning `Except Value Value`
(`.error e` models a synchronous throw or an asynchronous rejection, which
`invokePromiseFn` in the source makes indistinguishable), and the
`Promise.all` join over event handlers is modelled by running the handlers
in registration order, keeping the first failure.

The externally-owned transition log (an array mutated by the handler that
`logTransitions` registers) is threaded explicitly through `advance` as a
`Log` value, and `new Date()` is modelled by a caller-supplied `time` value.
-/

namespace ReplayFSM

/-- A JavaScript value, as far as the engine distinguishes values: the
engine only ever branches on truthiness, `Array.isArray`, strict equality
and property-key coercion.  `sym id descr` models a `Symbol` with identity
`id` and description `descr`; `err msg` models an `Error` object. -/
inductive Value where
  | undef
  | null
  | bool (b : Bool)
  | num (n : Int)
  | str (s : String)
  | sym (id : Nat) (descr : Option String)
  | arr (elems : List Value)
  | err (msg : String)

/-- JS truthiness.  Arrays and objects (including `Error`s and `Symbol`s)
are always truthy; `undefined`, `null`, `false`, `0` and `""` are falsy. -/
def Value.truthy : Value → Bool
  | .undef => false
  | .null => false
  | .bool b => b
  | .num n => decide (n ≠ 0)
  | .str s => decide (s ≠ "")
  | .sym _ _ => true
  | .arr _ => true
  | .err _ => true

/-- `Array.isArray`. -/
def Value.isArr : Value → Bool
  | .arr _ => true
  | _ => false

/-- JS string coercion `v + ""`.  Two corners are approximated because no
claim reaches them: coercing a `Symbol` throws a `TypeError` in JS (every
symbol the engine labels carries a description, so `getLabel` never
coerces one), and array coercion joins the elements (no state in this
development is an array). -/
def Value.jsToString : Value → String
  | .undef => "undefined"
  | .null => "null"
  | .bool b => cond b "true" "false"
  | .num n => toString n
  | .str s => s
  | .sym _ d => "Symbol(" ++ d.getD "" ++ ")"
  | .arr _ => ""
  | .err m => "Error: " ++ m

/-- `const getLabel = state => state.description || state + ""`.
Only symbols have a `description` property; a falsy (empty or absent)
description falls through to string coercion. -/
def getLabel (v : Value) : String :=
  match v with
  | .sym _ (some d) => if d = "" then v.jsToString else d
  | _ => v.jsToString

/-- JS strict equality `===` restricted to the values the engine compares
(states and sentinels).  Reference types (`arr`, `err`) compare by object
identity in JS, which a value-based embedding cannot express; they are
taken as never equal, which is exact for all distinctly-constructed
references and for every comparison any claim performs. -/
def jsEq : Value → Value → Bool
  | .undef, .undef => true
  | .null, .null => true
  | .bool a, .bool b => a == b
  | .num a, .num b => a == b
  | .str a, .str b => a == b
  | .sym i _, .sym j _ => i == j
  | _, _ => false

/-- `Array.prototype.includes` (SameValueZero; no NaN in this model). -/
def jsIncludes (l : List Value) (v : Value) : Bool :=
  l.any (fun x => jsEq x v)

/-- The module-level `EMPTY` sentinel symbol. -/
def EMPTY : Value := .sym 0 (some "EMPTY")

/-- The module-level `ERROR` sentinel symbol. -/
def ERROR : Value := .sym 1 (some "ERROR")

/-- A JS property key: plain objects key by strings, except `Symbol`s which
key by identity.  `this.validTransitions[state]` and the callback hash use
this coercion. -/
inductive PropKey where
  | str (s : String)
  | sym (id : Nat)
deriving DecidableEq

/-- Coerce a value to the property key it denotes. -/
def propKey : Value → PropKey
  | .sym i _ => .sym i
  | v => .str v.jsToString

/-- `hashList[key] || []`. -/
def hlGet {α : Type} (hl : List (PropKey × List α)) (k : PropKey) : List α :=
  match hl.find? (fun e => e.1 == k) with
  | some e => e.2
  | none => []

/-- Store a whole bucket under a key (replacing the previous bucket). -/
def hlSet {α : Type} : List (PropKey × List α) → PropKey → List α → List (PropKey × List α)
  | [], k, v => [(k, v)]
  | e :: rest, k, v => if e.1 == k then (k, v) :: rest else e :: hlSet rest k v

/-- `saveToHashList`: `hashList[key] = hashList[key] || [];
hashList[key][prepend ? "unshift" : "push"](value)`. -/
def saveToHashList {α : Type} (hl : List (PropKey × List α)) (k : PropKey) (value : α)
    (prepend : Bool) : List (PropKey × List α) :=
  hlSet hl k (if prepend then value :: hlGet hl k else hlGet hl k ++ [value])

/-- A transition function: receives the transition input, either throws
(`.error e`, covering both synchronous throws and promise rejections) or
returns a value. -/
abbrev TransFn : Type := List Value → Except Value Value

/-- A transition rule `{transitionFn, nextState, errorState}`.  Absent
fields hold `Value.undef`; the source only ever tests them for truthiness,
so a declared-but-falsy field is indistinguishable from an absent one. -/
structure Rule where
  transitionFn : Option TransFn
  nextState : Value
  errorState : Value

/-- One entry of an event payload or of a transition-log record: the engine
stores plain values, value sequences (`input`/`output`) and the matched
rule object in these JS objects. -/
inductive Field where
  | val (v : Value)
  | vals (vs : List Value)
  | rule (r : Rule)

/-- A JS object used as an event payload or a log record: an ordered list
of key/field pairs (later keys would shadow earlier ones; the engine never
duplicates keys). -/
abbrev Payload : Type := List (String × Field)

/-- The externally-owned transition log: an ordered list of records. -/
abbrev Log : Type := List Payload

/-- Property lookup on a payload/record; `.val .undef` models an absent
property read. -/
def getProp (p : Payload) (k : String) : Field :=
  match p.find? (fun e => e.1 == k) with
  | some e => e.2
  | none => Field.val Value.undef

/-- `field === v` for a payload field compared against a plain value. -/
def fieldEq (f : Field) (v : Value) : Bool :=
  match f with
  | .val w => jsEq w v
  | _ => false

/-- JS truthiness of a payload field (arrays and rule objects are truthy). -/
def fieldTruthy : Field → Bool
  | .val v => v.truthy
  | .vals _ => true
  | .rule _ => true

/-- Spreading a field as an argument list (`...output`).  Spreading a
non-iterable throws in JS; that corner is unreached for records produced
by `logTransitions`, whose `output` is always a sequence. -/
def fieldSpread : Field → List Value
  | .vals vs => vs
  | .val (.arr vs) => vs
  | _ => []

/-- An event handler.  `fn f` is an ordinary host callback, modelled by its
failure behaviour (`.error e` = throw/rejection); `logger` is the specific
handler that `logTransitions` registers, which appends a timestamped record
to the external log. -/
inductive Hook where
  | fn (f : Payload → Except Value Unit)
  | logger

/-- The record the `logTransitions` handler pushes:
`{time: new Date(), ...transitionData}`. -/
def logRecord (time : Value) (p : Payload) : Payload :=
  ("time", .val time) :: p

/-- Run one handler: an ordinary callback may fail; the logger appends its
record to the log and succeeds. -/
def applyHook (h : Hook) (p : Payload) (time : Value) (log : Log) :
    Except Value Unit × Log :=
  match h with
  | .fn f => (f p, log)
  | .logger => (.ok (), log ++ [logRecord time p])

/-- Run a list of handlers on one payload, threading the log.  All handlers
run (as under `Promise.all` every promise is started), and the join keeps
the first failure in registration order. -/
def runHooks : List Hook → Payload → Value → Log → Except Value Unit × Log
  | [], _, _, log => (.ok (), log)
  | h :: rest, p, time, log =>
    match applyHook h p time log with
    | (r1, log1) =>
      match runHooks rest p time log1 with
      | (r2, log2) => (match r1 with | .error e => .error e | .ok _ => r2, log2)

/-- `callbackHashList(hashList, eventName, ...args)`: invoke every handler
registered for the event; the join fails iff some handler failed. -/
def callbackHashList (hl : List (PropKey × List Hook)) (eventName : PropKey)
    (p : Payload) (time : Value) (log : Log) : Except Value Unit × Log :=
  runHooks (hlGet hl eventName) p time log

/-- The FSM instance: `currentState`, the callback hash, the transition
table and the reentrancy guard. -/
structure FSM where
  currentState : Value
  callbacks : List (PropKey × List Hook)
  validTransitions : List (PropKey × List Rule)
  inTransition : Bool

/-- `new FSM(initialState)` (the source defaults `initialState` to
`EMPTY` when no argument is given). -/
def FSM.mkNew (initialState : Value) : FSM :=
  ⟨initialState, [], [], false⟩

/-- `fsm.on(eventName, callback)`. -/
def FSM.on (m : FSM) (eventName : Value) (cb : Hook) : FSM :=
  { m with callbacks := saveToHashList m.callbacks (propKey eventName) cb false }

/-- `logTransitions(fsm, transitionLog)`: registers the logging handler on
`posttransition`.  The log array itself is threaded through `advance`
explicitly in this embedding, so only the registration is modelled here. -/
def logTransitions (m : FSM) : FSM :=
  m.on (.str "posttransition") .logger

/-- `fsm.addTransition(startingState, {transitionFn, nextState, errorState},
prepend)`: rejects a rule with neither a `transitionFn` nor a truthy
`nextState`, otherwise stores it in the transition table. -/
def FSM.addTransition (m : FSM) (startingState : Value) (r : Rule) (prepend : Bool) :
    Except Value FSM :=
  if r.transitionFn.isNone && !r.nextState.truthy then
    .error (.err ("cannot add transition from " ++ getLabel startingState ++
      " without a transitionFn or nextState defined"))
  else
    .ok { m with validTransitions := saveToHashList m.validTransitions (propKey startingState) r prepend }

/-- Outcome of the candidate scan inside `advance`: either no candidate
resolved a truthy next state (`noMatch`, leading to the "No valid
transition" error) or the scan stopped at `rule` with a resolved state and
output. -/
inductive ScanOut where
  | noMatch
  | found (nextState : Value) (rule : Rule) (output : List Value)

/-- The candidate-scan loop of `advance` (the `for` loop over
`validTransitions[currentState]`), compiled clause by clause:
tentatively adopt the rule's `nextState`; run `transitionFn` if present;
a throw routes to `errorState || ERROR` with output `[e]` and stops the
scan; a truthy array result is destructured (head = state, tail = output)
when no static state is set, or becomes the whole output when one is; a
truthy non-array result becomes the state (no static) or the one-element
output (static); the loop repeats exactly while the resolved state is
falsy. -/
def scanRules (input : List Value) : List Rule → ScanOut
  | [] => .noMatch
  | r :: rest =>
    match r.transitionFn with
    | none =>
      if r.nextState.truthy then .found r.nextState r [] else scanRules input rest
    | some f =>
      match f input with
      | .error e => .found (if r.errorState.truthy then r.errorState else ERROR) r [e]
      | .ok res =>
        if res.truthy then
          match res with
          | .arr elems =>
            if r.nextState.truthy then .found r.nextState r elems
            else
              match elems with
              | [] => scanRules input rest
              | ns :: out => if ns.truthy then .found ns r out else scanRules input rest
          | _ =>
            if r.nextState.truthy then .found r.nextState r [res]
            else .found res r []
        else
          if r.nextState.truthy then .found r.nextState r [] else scanRules input rest

/-- The pretransition payload `{from: currentState, input}`. -/
def prePayload (fromSt : Value) (input : List Value) : Payload :=
  [("from", .val fromSt), ("input", .vals input)]

/-- The posttransition payload
`{from, to, transition, input, output}` — note the matched rule travels
under the key `transition`. -/
def postPayload (fromSt toSt : Value) (r : Rule) (input output : List Value) : Payload :=
  [("from", .val fromSt), ("to", .val toSt), ("transition", .rule r),
   ("input", .vals input), ("output", .vals output)]

/-- Result of one `advance` call: the instance afterwards, the log
afterwards, and either the returned `[newState, ...output]` array
(`.ok`) or the thrown/rejected error (`.error`). -/
structure AdvanceResult where
  fsm : FSM
  log : Log
  outcome : Except Value (List Value)

/-- `fsm.advance(...transitionInput)`, compiled arm by arm from the source:
reentrancy guard; pretransition join (failure resets the guard and
rethrows); candidate scan; "No valid transition" error when nothing
resolved (the guard is NOT reset on this path — the source's throw is
outside the `try/finally`); state mutation; posttransition join inside
`try { ... } finally { this.inTransition = false }`. -/
def FSM.advance (m : FSM) (input : List Value) (time : Value) (log : Log) : AdvanceResult :=
  if m.inTransition then
    ⟨m, log, .error (.err "cannot advance while in transition")⟩
  else
    match callbackHashList m.callbacks (.str "pretransition") (prePayload m.currentState input) time log with
    | (.error e, log1) => ⟨{ m with inTransition := false }, log1, .error e⟩
    | (.ok _, log1) =>
      match scanRules input (hlGet m.validTransitions (propKey m.currentState)) with
      | .noMatch =>
        ⟨{ m with inTransition := true }, log1,
          .error (.err ("No valid transition from state " ++ getLabel m.currentState))⟩
      | .found ns r out =>
        match callbackHashList m.callbacks (.str "posttransition") (postPayload m.currentState ns r input out) time log1 with
        | (.error e, log2) => ⟨{ m with currentState := ns, inTransition := false }, log2, .error e⟩
        | (.ok _, log2) => ⟨{ m with currentState := ns, inTransition := false }, log2, .ok (ns :: out)⟩

/-- `Array.isArray(finalStates) ? finalStates : [finalStates, ERROR]`. -/
def normalizeFinals (finalStates : Value) : List Value :=
  match finalStates with
  | .arr fs => fs
  | f => [f, ERROR]

/-- The `while (!finalStates.includes(nextState))` loop of `runFSM`, with
explicit fuel standing for the (unbounded) number of iterations:
`none` means the fuel ran out before the loop exited.  `nextState` and
`result` carry the loop variables (`undefined` before the first
iteration; afterwards the head of, and the whole of, the last `advance`
result), and `args` the next call's input. -/
def runFSMAux : Nat → FSM → List Value → Value → Value → List Value → Value → Log →
    Option (FSM × Log × Except Value Value)
  | 0, _, _, _, _, _, _, _ => none
  | fuel + 1, m, finals, nextState, result, args, time, log =>
    if jsIncludes finals nextState then some (m, log, .ok result)
    else
      match m.advance args time log with
      | ⟨m1, log1, .error e⟩ => some (m1, log1, .error e)
      | ⟨m1, log1, .ok ret⟩ =>
        runFSMAux fuel m1 finals (ret.headD .undef) (.arr ret) ret.tail time log1

/-- `runFSM(fsm, finalStates, ...args)`. -/
def runFSM (fuel : Nat) (m : FSM) (finalStates : Value) (args : List Value)
    (time : Value) (log : Log) : Option (FSM × Log × Except Value Value) :=
  runFSMAux fuel m (normalizeFinals finalStates) .undef .undef args time log

/-- `rerunFSM(fsm, initialState, finalStates, transitionLog)`: pick the
most recent log record whose `to` is `initialState`
(`transitionLog.slice().reverse().filter(t => t.to === initialState)[0]`),
take its `output` (or `[]` when absent/falsy) as the arguments, force-set
`currentState` and hand over to `runFSM`. -/
def rerunFSM (fuel : Nat) (m : FSM) (initialState finalStates : Value)
    (transitionLog : Log) (time : Value) (log : Log) :
    Option (FSM × Log × Except Value Value) :=
  match (transitionLog.reverse.filter (fun t => fieldEq (getProp t "to") initialState)).head? with
  | some t =>
    let outF := getProp t "output"
    runFSM fuel { m with currentState := initialState } finalStates
      (if fieldTruthy outF then fieldSpread outF else []) time log
  | none =>
    runFSM fuel { m with currentState := initialState } finalStates [] time log

/-! ## Concrete fixtures used by counterexamples and witnesses -/

/-- State `"A"` (a plain string state, as in the repository's tests). -/
def stA : Value := .str "A"

/-- State `"B"`. -/
def stB : Value := .str "B"

/-- State `"C"`. -/
def stC : Value := .str "C"

/-- A rule `{nextState: "B"}` with no transition function. -/
def ruleToB : Rule := ⟨none, stB, .undef⟩

/-- A rule whose transition function returns the truthy empty array `[]`
and which declares no static `nextState`. -/
def fnEmptyArr : Rule := ⟨some (fun _ => .ok (.arr [])), .undef, .undef⟩

/-- A rule whose transition function returns `[false, 1]` — a truthy array
whose first element is falsy — with no static `nextState`. -/
def fnFalsyHead : Rule := ⟨some (fun _ => .ok (.arr [.bool false, .num 1])), .undef, .undef⟩

/-- A rule `{nextState: "B", transitionFn: () => null}`. -/
def fnFalsyStatic : Rule := ⟨some (fun _ => .ok .null), stB, .undef⟩

/-- An FSM sitting in state `"A"` whose table holds `rules` for `"A"`,
with no callbacks registered. -/
def fsmA (rules : List Rule) : FSM := ⟨stA, [], [(PropKey.str "A", rules)], false⟩

/-! ## Hash-list and candidate-scan lemmas -/

/-- `find?` after `hlSet` locates exactly the stored bucket. -/
theorem find?_hlSet {α : Type} (hl : List (PropKey × List α)) (k : PropKey) (v : List α) :
    (hlSet hl k v).find? (fun e => e.1 == k) = some (k, v) := by
  induction hl with
  | nil => simp [hlSet, List.find?]
  | cons e rest ih =>
    simp only [hlSet]
    by_cases h : e.1 = k
    · simp [List.find?, h]
    · simp [List.find?, h, ih]

/-- Reading back the bucket just written by `hlSet`. -/
theorem hlGet_hlSet_self {α : Type} (hl : List (PropKey × List α)) (k : PropKey) (v : List α) :
    hlGet (hlSet hl k v) k = v := by
  unfold hlGet
  rw [find?_hlSet]

/-- `saveToHashList` appends to (or prepends onto) the key's bucket. -/
theorem hlGet_saveToHashList {α : Type} (hl : List (PropKey × List α)) (k : PropKey)
    (v : α) (p : Bool) :
    hlGet (saveToHashList hl k v p) k =
      if p then v :: hlGet hl k else hlGet hl k ++ [v] := by
  unfold saveToHashList
  exact hlGet_hlSet_self hl k _

/-- The candidate scan examines the head rule first: the scan of `a :: l`
is the scan of `[a]` when that already resolves, and falls through to the
scan of `l` otherwise. -/
theorem scanRules_cons (input : List Value) (a : Rule) (l : List Rule) :
    scanRules input (a :: l) =
      match scanRules input [a] with
      | .noMatch => scanRules input l
      | out => out := by
  cases hfn : a.transitionFn with
  | none =>
    by_cases hns : a.nextState.truthy <;> simp [scanRules, hfn, hns]
  | some f =>
    cases hres : f input with
    | error e => simp [scanRules, hfn, hres]
    | ok res =>
      by_cases ht : res.truthy
      · cases res with
        | arr elems =>
          by_cases hns : a.nextState.truthy
          · have harr : (Value.arr elems).truthy = true := rfl
            simp [scanRules, hfn, hres, hns, harr]
          · cases elems with
            | nil => simp [scanRules, hfn, hres, hns, ht]
            | cons ns out =>
              by_cases hh : ns.truthy <;> simp [scanRules, hfn, hres, hns, ht, hh]
        | _ =>
          by_cases hns : a.nextState.truthy <;> simp [scanRules, hfn, hres, ht, hns]
      · by_cases hns : a.nextState.truthy <;> simp [scanRules, hfn, hres, ht, hns]

/-! ## C5 — registration order and candidate priority -/

/-- Claim C5: for two rules registered for the same starting state, the
transition table lists the first-registered rule first unless the second
was added with `prepend = true`, in which case the second comes first; and
the candidate scan tries the head of that list first — it returns the head
rule's resolution whenever the head resolves, and only otherwise falls
through to the remaining rules. -/
theorem addTransition_order_and_head_first :
    (∀ (m : FSM) (s : Value) (r1 r2 : Rule) (p : Bool) (m1 m2 : FSM),
       hlGet m.validTransitions (propKey s) = [] →
       m.addTransition s r1 false = .ok m1 →
       m1.addTransition s r2 p = .ok m2 →
       hlGet m2.validTransitions (propKey s) = if p then [r2, r1] else [r1, r2]) ∧
    (∀ (input : List Value) (a : Rule) (l : List Rule),
       (scanRules input [a] = .noMatch → scanRules input (a :: l) = scanRules input l) ∧
       (∀ ns r out, scanRules input [a] = .found ns r out →
          scanRules input (a :: l) = .found ns r out)) := by
  constructor
  · intro m s r1 r2 p m1 m2 h0 h1 h2
    unfold FSM.addTransition at h1 h2
    split at h1
    · exact absurd h1 (by simp)
    · split at h2
      · exact absurd h2 (by simp)
      · cases h1
        cases h2
        simp only [hlGet_saveToHashList, hlGet_saveToHashList, h0]
        cases p <;> simp
  · intro input a l
    constructor
    · intro h
      rw [scanRules_cons, h]
    · intro ns r out h
      rw [scanRules_cons, h]

/-- Witness for C5 at concrete inputs: registering a `"B"` rule then a
`"C"` rule from state `"A"` yields order `[toB, toC]` when appended and
`[toC, toB]` when the second is prepended, and the scan takes the head. -/
theorem addTransition_order_and_head_first_witness :
    hlGet (FSM.mkNew stA).validTransitions (propKey stA) = [] ∧
    ∃ m1 m2 : FSM,
      (FSM.mkNew stA).addTransition stA ruleToB false = .ok m1 ∧
      m1.addTransition stA ⟨none, stC, .undef⟩ true = .ok m2 ∧
      hlGet m2.validTransitions (propKey stA) = [⟨none, stC, .undef⟩, ruleToB] ∧
      scanRules [] [ruleToB] = .found stB ruleToB [] ∧
      scanRules [] (ruleToB :: [⟨none, stC, .undef⟩]) = .found stB ruleToB [] := by
  refine ⟨rfl, _, _, rfl, rfl, ?_, rfl, ?_⟩
  · have h := (addTransition_order_and_head_first.1 (FSM.mkNew stA) stA ruleToB
      ⟨none, stC, .undef⟩ true _ _ rfl rfl rfl)
    simpa using h
  · exact (addTransition_order_and_head_first.2 [] ruleToB [⟨none, stC, .undef⟩]).2
      stB ruleToB [] rfl

/-! ## C3 — "not applicable" versus thrown errors in the scan -/

/-- Counterexample to C3 as stated: the claim calls a falsy `transitionFn`
result (with no static `nextState`) *the only* condition that advances the
scan, but a transition function returning the truthy empty array `[]` also
advances it — here the scan skips `fnEmptyArr` and resolves via the next
candidate `ruleToB`. -/
theorem scan_advances_on_truthy_empty_array :
    Value.truthy (.arr []) = true ∧
    scanRules [] [fnEmptyArr, ruleToB] = .found stB ruleToB [] :=
  ⟨rfl, rfl⟩

/-- Claim C3 (amended): with no static `nextState`, a falsy `transitionFn`
result advances the scan to the next candidate, and so does a truthy array
result whose first element is absent or falsy; a `transitionFn` that
throws/rejects with `E` terminates the scan at that candidate with next
state `errorState || ERROR` and output `[E]`, independently of any
remaining candidates; and a candidate with a `transitionFn` is skipped
only under one of those non-throwing conditions. -/
theorem scan_skip_and_error_semantics :
    ∀ (input : List Value) (r : Rule) (rest : List Rule) (f : TransFn),
      r.transitionFn = some f →
      ((∀ res, f input = .ok res → res.truthy = false → r.nextState.truthy = false →
          scanRules input (r :: rest) = scanRules input rest) ∧
       (∀ elems, f input = .ok (.arr elems) → r.nextState.truthy = false →
          (elems.headD .undef).truthy = false →
          scanRules input (r :: rest) = scanRules input rest) ∧
       (∀ e, f input = .error e →
          scanRules input (r :: rest) =
            .found (if r.errorState.truthy then r.errorState else ERROR) r [e]) ∧
       (scanRules input [r] = .noMatch →
          r.nextState.truthy = false ∧
          ∃ res, f input = .ok res ∧
            (res.truthy = false ∨
             ∃ elems, res = .arr elems ∧ (elems.headD .undef).truthy = false))) := by
  intro input r rest f hfn
  refine ⟨?_, ?_, ?_, ?_⟩
  · intro res hres ht hns
    simp [scanRules, hfn, hres, ht, hns]
  · intro elems hres hns hh
    cases elems with
    | nil => simp [scanRules, hfn, hres, hns]
    | cons x xs =>
      have hh1 : x.truthy = false := by simpa using hh
      have harr : (Value.arr (x :: xs)).truthy = true := rfl
      simp [scanRules, hfn, hres, hns, hh1, harr]
  · intro e hres
    simp [scanRules, hfn, hres]
  · intro h
    cases hres : f input with
    | error e =>
      exfalso
      simp [scanRules, hfn, hres] at h
    | ok res =>
      by_cases ht : res.truthy
      · cases res with
        | arr elems =>
          by_cases hns : r.nextState.truthy
          · exfalso
            simp only [scanRules, hfn, hres] at h
            rw [if_pos ht, if_pos hns] at h
            exact absurd h (by simp)
          · refine ⟨by simpa using hns, .arr elems, rfl, .inr ⟨elems, rfl, ?_⟩⟩
            cases elems with
            | nil => rfl
            | cons x xs =>
              by_cases hh : x.truthy
              · exfalso
                simp only [scanRules, hfn, hres] at h
                rw [if_pos ht, if_neg (by simp [hns]), if_pos hh] at h
                exact absurd h (by simp)
              · simpa using hh
        | _ =>
          exfalso
          simp only [scanRules, hfn, hres] at h
          rw [if_pos ht] at h
          split at h <;> exact absurd h (by simp)
      · by_cases hns : r.nextState.truthy
        · exfalso
          simp only [scanRules, hfn, hres] at h
          rw [if_neg ht, if_pos hns] at h
          exact absurd h (by simp)
        · exact ⟨by simpa using hns, res, rfl, .inl (by simpa using ht)⟩

/-- Witness for C3 (amended) at concrete inputs: a falsy (`null`) result
skips to the next rule; a throwing rule with no `errorState` resolves to
`ERROR` with the error as sole output, with another candidate present and
ignored. -/
theorem scan_skip_and_error_semantics_witness :
    scanRules [] (⟨some (fun _ => .ok .null), .undef, .undef⟩ :: [ruleToB]) = scanRules [] [ruleToB] ∧
    scanRules [] (⟨some (fun _ => .error (.err "boom")), .undef, .undef⟩ :: [ruleToB]) =
      .found ERROR ⟨some (fun _ => .error (.err "boom")), .undef, .undef⟩ [.err "boom"] := by
  constructor
  · exact (scan_skip_and_error_semantics [] ⟨some (fun _ => .ok .null), .undef, .undef⟩
      [ruleToB] (fun _ => .ok .null) rfl).1 .null rfl rfl rfl
  · exact (scan_skip_and_error_semantics [] ⟨some (fun _ => .error (.err "boom")), .undef, .undef⟩
      [ruleToB] (fun _ => .error (.err "boom")) rfl).2.2.1 (.err "boom") rfl

/-! ## C4 — result-shape dispatch of a successful transitionFn -/

/-- Counterexample to C4 as stated: the claim says an array result with no
static `nextState` makes the array's *first element* the new state, but
for the result `[false, 1]` the falsy first element is not adopted — the
scan continues, and with no further candidate `advance` fails with the
"No valid transition" error, leaving the state at `"A"`. -/
theorem arr_falsy_head_is_not_adopted :
    scanRules [] [fnFalsyHead] = .noMatch ∧
    ((fsmA [fnFalsyHead]).advance [] .undef []).outcome =
      .error (.err "No valid transition from state A") ∧
    ((fsmA [fnFalsyHead]).advance [] .undef []).fsm.currentState = stA :=
  ⟨rfl, rfl, rfl⟩

/-- Claim C4 (amended): when a candidate's `transitionFn` succeeds with a
truthy result `R`, the resolution is: `R` an array with no static
`nextState` and a truthy first element — that element becomes the new
state and the remaining elements the output; `R` an array with a static
`nextState` — all of `R` becomes the output and the static state wins;
`R` a non-array truthy value with no static `nextState` — `R` becomes the
new state with empty output; `R` a non-array truthy value with a static
`nextState` — output is the one-element sequence `[R]`. -/
theorem scan_result_shape_dispatch :
    ∀ (input : List Value) (r : Rule) (rest : List Rule) (f : TransFn) (res : Value),
      r.transitionFn = some f → f input = .ok res → res.truthy = true →
      ((∀ elems, res = .arr elems → r.nextState.truthy = false →
          (elems.headD .undef).truthy = true →
          scanRules input (r :: rest) = .found (elems.headD .undef) r elems.tail) ∧
       (∀ elems, res = .arr elems → r.nextState.truthy = true →
          scanRules input (r :: rest) = .found r.nextState r elems) ∧
       (res.isArr = false → r.nextState.truthy = false →
          scanRules input (r :: rest) = .found res r []) ∧
       (res.isArr = false → r.nextState.truthy = true →
          scanRules input (r :: rest) = .found r.nextState r [res])) := by
  intro input r rest f res hfn hres ht
  refine ⟨?_, ?_, ?_, ?_⟩
  · intro elems helems hns hh
    subst helems
    cases elems with
    | nil => simp [Value.truthy] at hh
    | cons x xs =>
      have hh1 : x.truthy = true := by simpa using hh
      have harr : (Value.arr (x :: xs)).truthy = true := rfl
      simp [scanRules, hfn, hres, hns, hh1, harr]
  · intro elems helems hns
    subst helems
    have harr : (Value.arr elems).truthy = true := rfl
    simp [scanRules, hfn, hres, hns, harr]
  · intro hna hns
    cases res <;> simp_all [Value.isArr, scanRules, Value.truthy]
  · intro hna hns
    cases res <;> simp_all [Value.isArr, scanRules, Value.truthy]

/-- Witness for C4 (amended) at concrete inputs, one per shape: array with
truthy head and no static state; array with a static state; non-array with
and without a static state. -/
theorem scan_result_shape_dispatch_witness :
    scanRules [] [⟨some (fun _ => .ok (.arr [stB, .num 7])), .undef, .undef⟩] =
      .found stB ⟨some (fun _ => .ok (.arr [stB, .num 7])), .undef, .undef⟩ [.num 7] ∧
    scanRules [] [⟨some (fun _ => .ok (.arr [.num 7])), stC, .undef⟩] =
      .found stC ⟨some (fun _ => .ok (.arr [.num 7])), stC, .undef⟩ [.num 7] ∧
    scanRules [] [⟨some (fun _ => .ok stB), .undef, .undef⟩] =
      .found stB ⟨some (fun _ => .ok stB), .undef, .undef⟩ [] ∧
    scanRules [] [⟨some (fun _ => .ok (.num 7)), stC, .undef⟩] =
      .found stC ⟨some (fun _ => .ok (.num 7)), stC, .undef⟩ [.num 7] := by
  refine ⟨?_, ?_, ?_, ?_⟩
  · have h := (scan_result_shape_dispatch [] ⟨some (fun _ => .ok (.arr [stB, .num 7])), .undef, .undef⟩
      [] (fun _ => .ok (.arr [stB, .num 7])) (.arr [stB, .num 7]) rfl rfl rfl).1
      [stB, .num 7] rfl rfl rfl
    simpa using h
  · exact (scan_result_shape_dispatch [] ⟨some (fun _ => .ok (.arr [.num 7])), stC, .undef⟩
      [] (fun _ => .ok (.arr [.num 7])) (.arr [.num 7]) rfl rfl rfl).2.1 [.num 7] rfl rfl
  · exact (scan_result_shape_dispatch [] ⟨some (fun _ => .ok stB), .undef, .undef⟩
      [] (fun _ => .ok stB) stB rfl rfl rfl).2.2.1 rfl rfl
  · exact (scan_result_shape_dispatch [] ⟨some (fun _ => .ok (.num 7)), stC, .undef⟩
      [] (fun _ => .ok (.num 7)) (.num 7) rfl rfl rfl).2.2.2 rfl rfl

/-! ## C10 — static nextState wins over a falsy transitionFn result -/

/-- Claim C10: a rule declaring both a (truthy) static `nextState` and a
`transitionFn` commits to the static state with empty output when the
function returns falsy without throwing: the candidate is not treated as
"not applicable", no later candidate is tried (the scan result does not
depend on `rest`), and `advance` moves the instance to that state. -/
theorem static_nextState_wins_on_falsy_result :
    ∀ (input : List Value) (r : Rule) (rest : List Rule) (f : TransFn) (res : Value),
      r.transitionFn = some f → f input = .ok res → res.truthy = false →
      r.nextState.truthy = true →
      (scanRules input (r :: rest) = .found r.nextState r [] ∧
       ∀ (m : FSM) (time : Value) (log log1 : Log),
         m.inTransition = false →
         callbackHashList m.callbacks (.str "pretransition")
           (prePayload m.currentState input) time log = (.ok (), log1) →
         hlGet m.validTransitions (propKey m.currentState) = r :: rest →
         ((m.advance input time log).fsm.currentState = r.nextState ∧
          (m.advance input time log).fsm.inTransition = false)) := by
  intro input r rest f res hfn hres ht hns
  have hscan : scanRules input (r :: rest) = .found r.nextState r [] := by
    simp [scanRules, hfn, hres, ht, hns]
  refine ⟨hscan, ?_⟩
  intro m time log log1 hguard hpre hrules
  unfold FSM.advance
  rw [hguard]
  simp only [Bool.false_eq_true, if_false]
  rw [hpre, hrules, hscan]
  cases hpost : callbackHashList m.callbacks (.str "posttransition")
      (postPayload m.currentState r.nextState r input []) time log1 with
  | mk r2 log2 => cases r2 <;> simp [hpost]

/-- Witness for C10 at a concrete input: the rule
`{nextState: "B", transitionFn: () => null}` moves `"A"` to `"B"`. -/
theorem static_nextState_wins_on_falsy_result_witness :
    scanRules [] (fnFalsyStatic :: []) = .found stB fnFalsyStatic [] ∧
    ((fsmA [fnFalsyStatic]).advance [] .undef []).fsm.currentState = stB := by
  have h := static_nextState_wins_on_falsy_result [] fnFalsyStatic []
    (fun _ => .ok .null) .null rfl rfl rfl rfl
  exact ⟨h.1, ((h.2 (fsmA [fnFalsyStatic]) .undef [] [] rfl rfl rfl).1).trans rfl⟩

/-! ## Advance-level lemmas and claims -/

/-- Resetting an already-clear guard is the identity on the instance. -/
theorem guard_reset_eq (m : FSM) (h : m.inTransition = false) :
    ({ m with inTransition := false } : FSM) = m := by
  obtain ⟨cs, cb, vt, g⟩ := m
  cases g
  · rfl
  · exact absurd h (by simp)

/-! ## C7 — pretransition failure aborts before any candidate runs -/

/-- Claim C7: if the pretransition join fails, `advance` propagates that
failure with the guard back to false and `currentState` unchanged (the
result instance is `m` itself), and no candidate rule is attempted — the
outcome is identical for every transition table the instance might hold. -/
theorem pretransition_failure_aborts :
    ∀ (m : FSM) (input : List Value) (time : Value) (log : Log) (e : Value) (log1 : Log),
      m.inTransition = false →
      callbackHashList m.callbacks (.str "pretransition")
        (prePayload m.currentState input) time log = (.error e, log1) →
      (m.advance input time log = ⟨m, log1, .error e⟩ ∧
       ∀ vt, FSM.advance { m with validTransitions := vt } input time log =
         ⟨{ m with validTransitions := vt }, log1, .error e⟩) := by
  intro m input time log e log1 hguard hpre
  constructor
  · unfold FSM.advance
    rw [hguard]
    simp only [Bool.false_eq_true, if_false]
    rw [hpre, guard_reset_eq m hguard]
  · intro vt
    unfold FSM.advance
    rw [show ({ m with validTransitions := vt } : FSM).inTransition = false from hguard]
    simp only [Bool.false_eq_true, if_false]
    rw [show callbackHashList ({ m with validTransitions := vt } : FSM).callbacks
        (.str "pretransition")
        (prePayload ({ m with validTransitions := vt } : FSM).currentState input) time log =
        (.error e, log1) from hpre]

/-- Witness for C7 at a concrete input: one throwing pretransition hook on
a machine holding a valid rule; `advance` rethrows and leaves the machine
untouched. -/
theorem pretransition_failure_aborts_witness :
    ((fsmA [ruleToB]).on (.str "pretransition") (.fn (fun _ => .error (.err "prehook")))).advance
      [] .undef [] =
    ⟨(fsmA [ruleToB]).on (.str "pretransition") (.fn (fun _ => .error (.err "prehook"))),
     [], .error (.err "prehook")⟩ :=
  (pretransition_failure_aborts
    ((fsmA [ruleToB]).on (.str "pretransition") (.fn (fun _ => .error (.err "prehook"))))
    [] .undef [] (.err "prehook") [] rfl rfl).1

/-! ## C1 — no candidate resolves -/

/-- Counterexample to C1 as stated: `advance` on a fresh instance (state
`EMPTY`, no rules) fails with the structural error naming the state, and
the state is unchanged — but `inTransition` is left `true`, not reset to
`false`: the source throws this error outside its `try/finally`. -/
theorem no_valid_transition_guard_counterexample :
    ((FSM.mkNew EMPTY).advance [] .undef []).outcome =
      .error (.err "No valid transition from state EMPTY") ∧
    ((FSM.mkNew EMPTY).advance [] .undef []).fsm.currentState = EMPTY ∧
    ((FSM.mkNew EMPTY).advance [] .undef []).fsm.inTransition = true :=
  ⟨rfl, rfl, rfl⟩

/-- Claim C1 (amended): if the pretransition join succeeds but no candidate
rule yields a resolved next state (including when the current state has no
registered rules), `advance` fails with a structural error naming the
current state's label, with `currentState` unchanged — but the instance is
left with `inTransition` still `true`: this error path does not reset the
guard. -/
theorem no_valid_transition_error :
    ∀ (m : FSM) (input : List Value) (time : Value) (log log1 : Log),
      m.inTransition = false →
      callbackHashList m.callbacks (.str "pretransition")
        (prePayload m.currentState input) time log = (.ok (), log1) →
      scanRules input (hlGet m.validTransitions (propKey m.currentState)) = .noMatch →
      m.advance input time log =
        ⟨{ m with inTransition := true }, log1,
         .error (.err ("No valid transition from state " ++ getLabel m.currentState))⟩ := by
  intro m input time log log1 hguard hpre hscan
  unfold FSM.advance
  rw [hguard]
  simp only [Bool.false_eq_true, if_false]
  rw [hpre, hscan]

/-- Witness for C1 (amended) at a concrete input: a fresh instance with no
rules for `EMPTY`. -/
theorem no_valid_transition_error_witness :
    (FSM.mkNew EMPTY).advance [] .undef [] =
      ⟨{ FSM.mkNew EMPTY with inTransition := true }, [],
       .error (.err ("No valid transition from state " ++ getLabel EMPTY))⟩ :=
  no_valid_transition_error (FSM.mkNew EMPTY) [] .undef [] [] rfl rfl rfl

/-! ## C6 — posttransition failure commits the state, guard always reset -/

/-- Claim C6: once a candidate resolves, the state mutation commits before
the posttransition join; if that join fails its error propagates from
`advance` with the mutation *not* rolled back (`currentState` is the new
state), and `inTransition` is reset to `false` on both the failure and the
success exit of the join. -/
theorem posttransition_failure_commits_state :
    ∀ (m : FSM) (input : List Value) (time : Value) (log log1 : Log)
      (ns : Value) (r : Rule) (out : List Value),
      m.inTransition = false →
      callbackHashList m.callbacks (.str "pretransition")
        (prePayload m.currentState input) time log = (.ok (), log1) →
      scanRules input (hlGet m.validTransitions (propKey m.currentState)) = .found ns r out →
      ((∀ e log2,
          callbackHashList m.callbacks (.str "posttransition")
            (postPayload m.currentState ns r input out) time log1 = (.error e, log2) →
          m.advance input time log =
            ⟨{ m with currentState := ns, inTransition := false }, log2, .error e⟩) ∧
       (∀ log2,
          callbackHashList m.callbacks (.str "posttransition")
            (postPayload m.currentState ns r input out) time log1 = (.ok (), log2) →
          m.advance input time log =
            ⟨{ m with currentState := ns, inTransition := false }, log2, .ok (ns :: out)⟩)) := by
  intro m input time log log1 ns r out hguard hpre hscan
  constructor
  · intro e log2 hpost
    simp only [FSM.advance, hguard, Bool.false_eq_true, if_false, hpre, hscan, hpost]
  · intro log2 hpost
    simp only [FSM.advance, hguard, Bool.false_eq_true, if_false, hpre, hscan, hpost]

/-- Witness for C6 at a concrete input: a single throwing posttransition
hook; the machine ends in the new state `"B"` with the guard clear while
the hook's error propagates. -/
theorem posttransition_failure_commits_state_witness :
    ((fsmA [ruleToB]).on (.str "posttransition") (.fn (fun _ => .error (.err "posthook")))).advance
      [] .undef [] =
    ⟨{ (fsmA [ruleToB]).on (.str "posttransition") (.fn (fun _ => .error (.err "posthook"))) with
        currentState := stB, inTransition := false },
     [], .error (.err "posthook")⟩ :=
  (posttransition_failure_commits_state
    ((fsmA [ruleToB]).on (.str "posttransition") (.fn (fun _ => .error (.err "posthook"))))
    [] .undef [] [] stB ruleToB [] rfl rfl rfl).1 (.err "posthook") [] rfl

/-! ## C9 — the shape of logged transition records -/

/-- Whether a hook is the handler registered by `logTransitions`. -/
def Hook.isLogger : Hook → Bool
  | .logger => true
  | .fn _ => false

/-- Running a hook list appends exactly one `logRecord` per registered
logger, in order, regardless of hook failures. -/
theorem runHooks_log (hooks : List Hook) (p : Payload) (time : Value) (log : Log) :
    (runHooks hooks p time log).2 =
      log ++ List.replicate (hooks.countP (fun h => h.isLogger)) (logRecord time p) := by
  induction hooks generalizing log with
  | nil => simp [runHooks]
  | cons h rest ih =>
    cases h with
    | fn f =>
      simp only [runHooks, applyHook]
      rcases hrec : runHooks rest p time log with ⟨r2, log2⟩
      have h2 := ih log
      rw [hrec] at h2
      have hc : List.countP (fun h => h.isLogger) (Hook.fn f :: rest) =
          List.countP (fun h => h.isLogger) rest := by
        simp [List.countP_cons, Hook.isLogger]
      rw [hc]
      exact h2
    | logger =>
      simp only [runHooks, applyHook]
      rcases hrec : runHooks rest p time (log ++ [logRecord time p]) with ⟨r2, log2⟩
      have h2 := ih (log ++ [logRecord time p])
      rw [hrec] at h2
      have hc : List.countP (fun h => h.isLogger) (Hook.logger :: rest) =
          List.countP (fun h => h.isLogger) rest + 1 := by
        simp [List.countP_cons, Hook.isLogger]
      rw [hc]
      rw [show log2 = log ++ [logRecord time p] ++
          List.replicate (List.countP (fun h => h.isLogger) rest) (logRecord time p) from h2]
      simp [List.replicate_succ]

/-- A machine with one `"B"` rule and `logTransitions` applied. -/
def fsmLogged : FSM := logTransitions (fsmA [ruleToB])

/-- Counterexample to C9 as stated: after a successful transition the
record appended by the `logTransitions` handler carries the matched rule
under the key `transition`, not `rule` — looking up `rule` on the record
finds nothing. -/
theorem record_key_is_transition_not_rule :
    ((fsmLogged.advance [] (.num 0) []).log).length = 1 ∧
    getProp (((fsmLogged.advance [] (.num 0) []).log).headD []) "rule" = .val .undef ∧
    getProp (((fsmLogged.advance [] (.num 0) []).log).headD []) "transition" = .rule ruleToB ∧
    getProp (((fsmLogged.advance [] (.num 0) []).log).headD []) "from" = .val stA ∧
    getProp (((fsmLogged.advance [] (.num 0) []).log).headD []) "to" = .val stB :=
  ⟨rfl, rfl, rfl, rfl, rfl⟩

/-- Claim C9 (amended): every record appended by the `logTransitions`
handler after a successful transition is
`{time, from, to, transition, input, output}` — the matched rule travels
under the key `transition` (not `rule`), `from` is the pre-transition
state, `to` the committed new state, and `input`/`output` the transition's
input and output sequences; the posttransition payload carries the same
keys minus `time`. -/
theorem posttransition_record_shape :
    ∀ (m : FSM) (input : List Value) (time : Value) (log log1 : Log)
      (ns : Value) (r : Rule) (out : List Value),
      m.inTransition = false →
      callbackHashList m.callbacks (.str "pretransition")
        (prePayload m.currentState input) time log = (.ok (), log1) →
      scanRules input (hlGet m.validTransitions (propKey m.currentState)) = .found ns r out →
      ((m.advance input time log).log =
         log1 ++ List.replicate
           ((hlGet m.callbacks (.str "posttransition")).countP (fun h => h.isLogger))
           (logRecord time (postPayload m.currentState ns r input out)) ∧
       logRecord time (postPayload m.currentState ns r input out) =
         [("time", .val time), ("from", .val m.currentState), ("to", .val ns),
          ("transition", .rule r), ("input", .vals input), ("output", .vals out)] ∧
       getProp (postPayload m.currentState ns r input out) "transition" = .rule r ∧
       getProp (postPayload m.currentState ns r input out) "rule" = .val .undef) := by
  intro m input time log log1 ns r out hguard hpre hscan
  refine ⟨?_, rfl, rfl, rfl⟩
  simp only [FSM.advance, hguard, Bool.false_eq_true, if_false, hpre, hscan]
  rcases hpost : callbackHashList m.callbacks (.str "posttransition")
      (postPayload m.currentState ns r input out) time log1 with ⟨res, log2⟩
  have hlog : log2 = log1 ++ List.replicate
      ((hlGet m.callbacks (.str "posttransition")).countP (fun h => h.isLogger))
      (logRecord time (postPayload m.currentState ns r input out)) := by
    have h2 : (callbackHashList m.callbacks (.str "posttransition")
        (postPayload m.currentState ns r input out) time log1).2 = log2 := by
      rw [hpost]
    rw [← h2]
    exact runHooks_log _ _ _ _
  cases res <;> simpa using hlog

/-- Witness for C9 (amended) at a concrete input: the logged machine's
single advance appends exactly the one reshaped record. -/
theorem posttransition_record_shape_witness :
    (fsmLogged.advance [] (.num 0) []).log =
      [] ++ List.replicate
        ((hlGet fsmLogged.callbacks (.str "posttransition")).countP (fun h => h.isLogger))
        (logRecord (.num 0) (postPayload stA stB ruleToB [] [])) :=
  (posttransition_record_shape fsmLogged [] (.num 0) [] [] stB ruleToB [] rfl rfl rfl).1

/-! ## C2 — the run driver terminates when it reaches a final state -/

/-- The run driver's execution reaches a listed final state: starting at
instance `m` with input `args` and log `log`, a finite chain of successful
`advance` calls — each feeding its output sequence as the next call's
input sequence — arrives at a call whose returned state lies in `finals`;
`ret`, `m'` and `log'` are that arriving call's result. -/
inductive ReachesFinal (time : Value) (finals : List Value) :
    FSM → List Value → Log → List Value → FSM → Log → Prop
  | hit (m : FSM) (args : List Value) (log : Log) (m' : FSM) (log' : Log) (ret : List Value) :
      m.advance args time log = ⟨m', log', .ok ret⟩ →
      jsIncludes finals (ret.headD .undef) = true →
      ReachesFinal time finals m args log ret m' log'
  | step (m : FSM) (args : List Value) (log : Log) (m1 : FSM) (log1 : Log) (ret1 : List Value)
      (ret : List Value) (m' : FSM) (log' : Log) :
      m.advance args time log = ⟨m1, log1, .ok ret1⟩ →
      jsIncludes finals (ret1.headD .undef) = false →
      ReachesFinal time finals m1 ret1.tail log1 ret m' log' →
      ReachesFinal time finals m args log ret m' log'

/-- With enough fuel, the loop of `runFSM` returns the arriving call's
result whenever the execution reaches a final state, from any loop entry
whose `nextState` variable is not yet final. -/
theorem reachesFinal_runFSMAux {time : Value} {finals : List Value}
    {m : FSM} {args : List Value} {log : Log} {ret : List Value} {m' : FSM} {log' : Log}
    (h : ReachesFinal time finals m args log ret m' log') :
    ∀ ns result : Value, jsIncludes finals ns = false →
      ∃ fuel, runFSMAux fuel m finals ns result args time log =
        some (m', log', .ok (.arr ret)) := by
  induction h with
  | hit m args log m' log' ret hadv hinc =>
    intro ns result hns
    refine ⟨2, ?_⟩
    simp only [runFSMAux, hns, Bool.false_eq_true, if_false, hadv, hinc, if_true]
  | step m args log m1 log1 ret1 ret m' log' hadv hinc htail ih =>
    intro ns result hns
    obtain ⟨fuel, hrun⟩ := ih (ret1.headD .undef) (.arr ret1) hinc
    refine ⟨fuel + 1, ?_⟩
    simp only [runFSMAux, hns, Bool.false_eq_true, if_false, hadv]
    exact hrun

/-- Claim C2: `runFSM` normalizes a single non-array final state to the
two-element set of it and the `ERROR` sentinel, and — repeatedly calling
`advance` with each step's output as the next input — terminates in
finitely many steps (some sufficient fuel) and returns the final
`[state, ...output]` whenever the execution from the engine's current
state reaches a listed final state. -/
theorem runFSM_terminates_on_reachable_final :
    (∀ f : Value, f.isArr = false → normalizeFinals f = [f, ERROR]) ∧
    ∀ (finalStates : Value) (m : FSM) (args : List Value) (time : Value) (log : Log)
      (ret : List Value) (m' : FSM) (log' : Log),
      jsIncludes (normalizeFinals finalStates) .undef = false →
      ReachesFinal time (normalizeFinals finalStates) m args log ret m' log' →
      ∃ fuel, runFSM fuel m finalStates args time log = some (m', log', .ok (.arr ret)) := by
  constructor
  · intro f hf
    cases f <;> simp_all [normalizeFinals, Value.isArr]
  · intro finalStates m args time log ret m' log' hundef hreach
    obtain ⟨fuel, hrun⟩ := reachesFinal_runFSMAux hreach .undef .undef hundef
    exact ⟨fuel, hrun⟩

/-- Witness for C2 at a concrete input: a one-rule machine `"A" → "B"` run
to the single (non-array) final state `"B"`. -/
theorem runFSM_terminates_on_reachable_final_witness :
    jsIncludes (normalizeFinals stB) .undef = false ∧
    ∃ fuel, runFSM fuel (fsmA [ruleToB]) stB [] .undef [] =
      some ({ fsmA [ruleToB] with currentState := stB }, [], .ok (.arr [stB])) :=
  ⟨by decide,
   (runFSM_terminates_on_reachable_final.2 stB (fsmA [ruleToB]) [] .undef [] [stB]
     { fsmA [ruleToB] with currentState := stB } [] (by decide)
     (ReachesFinal.hit (fsmA [ruleToB]) [] [] { fsmA [ruleToB] with currentState := stB }
       [] [stB] rfl (by decide)))⟩

/-! ## C8 — resumption from the transition log -/

/-- Claim C8: `rerunFSM` scans the log in reverse chronological order for
the most recent record whose `to` field equals the resume state, uses that
record's `output` sequence as the resumption arguments (the empty sequence
when no record matches), force-sets the engine's `currentState` to the
resume state without performing a transition, and hands over to the run
driver `runFSM` with those arguments. -/
theorem rerunFSM_resumes_from_latest_record :
    ∀ (fuel : Nat) (m : FSM) (i f : Value) (tl : Log) (time : Value) (log : Log),
      ((∀ u ∈ tl, fieldEq (getProp u "to") i = false) →
         rerunFSM fuel m i f tl time log =
           runFSM fuel { m with currentState := i } f [] time log) ∧
      (∀ (l1 : Log) (t : Payload) (l2 : Log) (vs : List Value),
         tl = l1 ++ t :: l2 →
         fieldEq (getProp t "to") i = true →
         (∀ u ∈ l2, fieldEq (getProp u "to") i = false) →
         getProp t "output" = .vals vs →
         rerunFSM fuel m i f tl time log =
           runFSM fuel { m with currentState := i } f vs time log) := by
  intro fuel m i f tl time log
  constructor
  · intro hnone
    have hfil : tl.reverse.filter (fun u => fieldEq (getProp u "to") i) = [] := by
      rw [List.filter_eq_nil_iff]
      intro a ha
      simp [hnone a (List.mem_reverse.mp ha)]
    unfold rerunFSM
    rw [hfil]
    rfl
  · intro l1 t l2 vs htl ht hl2 hout
    have h2 : l2.reverse.filter (fun u => fieldEq (getProp u "to") i) = [] := by
      rw [List.filter_eq_nil_iff]
      intro a ha
      simp [hl2 a (List.mem_reverse.mp ha)]
    have hfil : tl.reverse.filter (fun u => fieldEq (getProp u "to") i) =
        t :: l1.reverse.filter (fun u => fieldEq (getProp u "to") i) := by
      subst htl
      rw [List.reverse_append, List.reverse_cons, List.filter_append, List.filter_append, h2]
      simp [List.filter_cons, ht]
    unfold rerunFSM
    rw [hfil]
    simp only [List.head?_cons, hout]
    rfl

/-- Witness for C8 at concrete inputs: among two records the more recent
one with `to = "B"` is selected and its output `[4]` becomes the
arguments; and with an empty log the arguments are empty. -/
theorem rerunFSM_resumes_from_latest_record_witness :
    fieldEq (getProp [("time", .val (.num 1)), ("from", .val stA), ("to", .val stB),
      ("output", .vals [.num 4])] "to") stB = true ∧
    rerunFSM 5 (fsmA []) stB stC
      [[("time", .val (.num 2)), ("from", .val stB), ("to", .val stC), ("output", .vals [.num 5])],
       [("time", .val (.num 1)), ("from", .val stA), ("to", .val stB), ("output", .vals [.num 4])]]
      .undef [] =
      runFSM 5 { fsmA [] with currentState := stB } stC [.num 4] .undef [] ∧
    rerunFSM 5 (fsmA []) stB stC [] .undef [] =
      runFSM 5 { fsmA [] with currentState := stB } stC [] .undef [] := by
  refine ⟨by decide, ?_, ?_⟩
  · exact (rerunFSM_resumes_from_latest_record 5 (fsmA []) stB stC
      [[("time", .val (.num 2)), ("from", .val stB), ("to", .val stC), ("output", .vals [.num 5])],
       [("time", .val (.num 1)), ("from", .val stA), ("to", .val stB), ("output", .vals [.num 4])]]
      .undef []).2
      [[("time", .val (.num 2)), ("from", .val stB), ("to", .val stC), ("output", .vals [.num 5])]]
      [("time", .val (.num 1)), ("from", .val stA), ("to", .val stB), ("output", .vals [.num 4])]
      [] [.num 4] rfl (by decide) (by intro u hu; exact absurd hu (List.not_mem_nil u)) rfl
  · exact (rerunFSM_resumes_from_latest_record 5 (fsmA []) stB stC [] .undef []).1
      (by intro u hu; exact absurd hu (List.not_mem_nil u))

end ReplayFSM
